import Mathlib

/-!
Verification development for the document-reconstruction pipeline of the
pdfbull repository (client-side PDF→DOCX conversion).

The embedding models, over exact rationals `ℚ`:

* the graphics-transform interpreter of `extractContentFromPdf`
  (save/restore stack, affine composition, image emission);
* the per-page text-run mapping (position, estimated font size,
  bold/italic inference from the font-family name) and the
  non-empty-after-trim filter;
* the per-page sort (descending Y with a 5-unit same-row tie-break by
  ascending X, via a stable insertion sort — a stable sort agrees with
  the JavaScript engine's stable `Array.prototype.sort` whenever the
  comparator is consistent on the input, as it is on every concrete
  input used below);
* the adjacent-text merge pass, run per page with its running item
  reset at page boundaries, exactly as in the source loop;
* the orchestration loop with its progress callback, modelled as an
  ordered event trace (`progress v` = callback invocation,
  `pageDone i` = the point where page `i`'s walk has completed);
* the DOCX assembly of `createDocxFromContent`: relationship-id
  allocation, media-file naming, Y-grouping into paragraphs, XML
  escaping and control-character stripping, and EMU unit conversion
  with clamping.

`Math.sqrt`, used by the source only to derive font sizes and image
scale factors, has no exact counterpart on `ℚ`; the pipeline
definitions therefore take an abstract `sqrtFn : ℚ → ℚ` parameter.
Every general theorem below holds for all values of this parameter;
concrete inputs are chosen so that the arguments passed to `sqrtFn` are
the perfect square `1`, and `fun q => q` is then used, which agrees
with the true square root on those arguments.

JavaScript semantics modelled explicitly: `Math.round x = ⌊x + 1/2⌋`;
`v || d` on numbers falls back to `d` exactly when the number `v` is
`0` (or the field is missing); string methods are re-implemented
structurally on `List Char`.
-/

/-- JavaScript `Math.round`: floor of `q + 1/2` (half rounds toward +∞). -/
def jsRound (q : ℚ) : ℤ := ⌊q + 1/2⌋

/-- A 6-parameter affine matrix `(a, b, c, d, e, f)`, as used by the
walker's `currentMatrix` and by PDF text-run transforms. -/
structure Matx where
  a : ℚ
  b : ℚ
  c : ℚ
  d : ℚ
  e : ℚ
  f : ℚ
deriving DecidableEq

/-- The identity matrix `[1, 0, 0, 1, 0, 0]` the walker starts from. -/
def idMatx : Matx := ⟨1, 0, 0, 1, 0, 0⟩

/-- The walker's transform composition: with current matrix `m`
(`a1..f1`) and incoming transform `n` (`a2..f2`), the new current
matrix, exactly as computed in `extractContentFromPdf`:
`[a1*a2+c1*b2, b1*a2+d1*b2, a1*c2+c1*d2, b1*c2+d1*d2,
  a1*e2+c1*f2+e1, b1*e2+d1*f2+f1]`. -/
def composeTransform (m n : Matx) : Matx :=
  ⟨m.a * n.a + m.c * n.b,
   m.b * n.a + m.d * n.b,
   m.a * n.c + m.c * n.d,
   m.b * n.c + m.d * n.d,
   m.a * n.e + m.c * n.f + m.e,
   m.b * n.e + m.d * n.f + m.f⟩

/-- Action of an affine matrix on a point (row-vector convention
`[x, y, 1] · M`, the convention under which `composeTransform m n` is
the matrix product `n · m`). -/
def applyPoint (m : Matx) (x y : ℚ) : ℚ × ℚ :=
  (m.a * x + m.c * y + m.e, m.b * x + m.d * y + m.f)

/-- Operators of a page's operator list, as dispatched by the walker:
`save`/`restore`/`transform` mutate the graphics state;
`paintImage resolved w h` covers the three image-painting operator
codes, with `resolved` modelling whether the image object could be
resolved and drawn to a canvas, and `w`, `h` its intrinsic pixel
dimensions (the source skips the image when `w && h` is falsy);
`err` marks the point at which interpreting the operator list throws. -/
inductive PdfOp where
  | save
  | restore
  | transform (n : Matx)
  | paintImage (resolved : Bool) (w : ℚ) (h : ℚ)
  | err
deriving DecidableEq

/-- A content item, per `DocContentItem` in the source: a text run with
position, width, estimated font size and style flags, or an image with
pixel-data presence flag, position, size, source extension, and the
relationship id assigned during DOCX generation (absent on extraction). -/
inductive DocItem where
  | text (content : String) (x y width fontSize : ℚ) (bold italic : Bool)
  | image (hasData : Bool) (x y width height : ℚ) (ext : String) (relId : Option String)
deriving DecidableEq

/-- The item's `x` field. -/
def itemX : DocItem → ℚ
  | .text _ x _ _ _ _ _ => x
  | .image _ x _ _ _ _ _ => x

/-- The item's `y` field. -/
def itemY : DocItem → ℚ
  | .text _ _ y _ _ _ _ => y
  | .image _ _ y _ _ _ _ => y

/-- Walker state: current matrix, saved-state stack, and the image
items collected so far (the source's `pageImageItems`, declared outside
the `try` block and therefore kept when interpretation throws). -/
structure WalkSt where
  m : Matx
  stack : List Matx
  imgs : List DocItem
deriving DecidableEq

/-- Walker start state: identity matrix, empty stack, no images. -/
def initialWalkSt : WalkSt := ⟨idMatx, [], []⟩

/-- One step of the walker. `save` pushes a copy of the current matrix;
`restore` pops it when the stack is non-empty and is a no-op otherwise;
`transform` composes; `paintImage` appends an image item positioned at
`(e, f)` with scale factors `sqrtFn (a²+b²)` and `sqrtFn (c²+d²)`,
extension `png` and no relationship id, when the image is resolved and
has non-zero pixel dimensions, and is skipped silently otherwise;
`err` throws (`none`). -/
def walkStep (sqrtFn : ℚ → ℚ) (st : WalkSt) : PdfOp → Option WalkSt
  | .save => some { st with stack := st.m :: st.stack }
  | .restore =>
      match st.stack with
      | [] => some st
      | m0 :: rest => some { st with m := m0, stack := rest }
  | .transform n => some { st with m := composeTransform st.m n }
  | .paintImage resolved w h =>
      if resolved = true ∧ w ≠ 0 ∧ h ≠ 0 then
        some { st with imgs := st.imgs ++
          [.image true st.m.e st.m.f
            (sqrtFn (st.m.a * st.m.a + st.m.b * st.m.b))
            (sqrtFn (st.m.c * st.m.c + st.m.d * st.m.d)) "png" none] }
      else some st
  | .err => none

/-- Run the walker over an operator list. Returns the final state and
whether interpretation threw; on a throw the images collected so far
are kept, matching the source's `try`/`catch` around the operator loop. -/
def walkOps (sqrtFn : ℚ → ℚ) (st : WalkSt) : List PdfOp → WalkSt × Bool
  | [] => (st, false)
  | op :: rest =>
      match walkStep sqrtFn st op with
      | none => (st, true)
      | some st' => walkOps sqrtFn st' rest

/-- Remove each `restore` that executes while the saved-state stack is
empty, given that the stack currently holds `d` entries. Used to state
that unmatched restores are no-ops. -/
def dropUnmatchedRestores (d : ℕ) : List PdfOp → List PdfOp
  | [] => []
  | .save :: rest => .save :: dropUnmatchedRestores (d + 1) rest
  | .restore :: rest =>
      if d = 0 then dropUnmatchedRestores 0 rest
      else .restore :: dropUnmatchedRestores (d - 1) rest
  | op :: rest => op :: dropUnmatchedRestores d rest

/-- Lower-case a string character-wise (JavaScript `toLowerCase` on the
ASCII font names involved). -/
def strLower (s : String) : String := ⟨s.data.map Char.toLower⟩

/-- Substring occurrence on character lists (JavaScript
`String.prototype.includes`). -/
def listContainsSub (pat : List Char) : List Char → Bool
  | [] => pat.isEmpty
  | c :: rest => pat.isPrefixOf (c :: rest) || listContainsSub pat rest

/-- Substring occurrence on strings. -/
def strContains (s pat : String) : Bool := listContainsSub pat.data s.data

/-- Bold inference: the lower-cased font-family name contains `bold`,
`black` or `heavy`. -/
def isBoldFont (name : String) : Bool :=
  strContains (strLower name) "bold" || strContains (strLower name) "black" ||
    strContains (strLower name) "heavy"

/-- Italic inference: the lower-cased font-family name contains
`italic` or `oblique`. -/
def isItalicFont (name : String) : Bool :=
  strContains (strLower name) "italic" || strContains (strLower name) "oblique"

/-- Strip leading and trailing whitespace (JavaScript `trim`). -/
def strTrim (s : String) : String :=
  ⟨((s.data.dropWhile Char.isWhitespace).reverse.dropWhile Char.isWhitespace).reverse⟩

/-- A text run as supplied by the upstream parser's `getTextContent`:
string, baked 6-entry transform, width, and the resolved font-family
name (the source reads it from the page's style map; the run's unused
`height` field is omitted). -/
structure PdfTextRun where
  str : String
  tx : Matx
  width : ℚ
  fontFamily : String
deriving DecidableEq

/-- Map one text run to a text item: position `(tx[4], tx[5])`, font
size estimated as `sqrt(tx[2]² + tx[3]²)`, style flags from the font
name. -/
def itemOfRun (sqrtFn : ℚ → ℚ) (r : PdfTextRun) : DocItem :=
  .text r.str r.tx.e r.tx.f r.width
    (sqrtFn (r.tx.c * r.tx.c + r.tx.d * r.tx.d))
    (isBoldFont r.fontFamily) (isItalicFont r.fontFamily)

/-- Keep only items whose text is non-empty after trimming
(`t.text.trim().length > 0`). -/
def textKeep : DocItem → Bool
  | .text content _ _ _ _ _ _ => decide (strTrim content ≠ "")
  | _ => false

/-- The page's text items: mapped runs, filtered to non-blank text. -/
def textItemsOfPage (sqrtFn : ℚ → ℚ) (runs : List PdfTextRun) : List DocItem :=
  (runs.map (itemOfRun sqrtFn)).filter textKeep

/-- The sort comparator of `extractContentFromPdf`: descending Y, with
items within 5 units of Y treated as the same row and ordered by
ascending X. A negative result places `a` before `b`. -/
def cmpItems (a b : DocItem) : ℚ :=
  if |itemY b - itemY a| < 5 then itemX a - itemX b else itemY b - itemY a

/-- Insert an element into a sorted prefix, after every element that
does not compare strictly greater — the placement a stable sort gives. -/
def sortInsert (x : DocItem) : List DocItem → List DocItem
  | [] => [x]
  | y :: ys => if cmpItems y x > 0 then x :: y :: ys else y :: sortInsert x ys

/-- Stable sort by `cmpItems` (insertion sort). -/
def sortItems (l : List DocItem) : List DocItem :=
  l.foldl (fun acc x => sortInsert x acc) []

/-- The merge guard: both items are text, `|ΔY| < 4`, font sizes within
2 of each other, and matching bold/italic flags. -/
def canMergeB : DocItem → DocItem → Bool
  | .text _ _ ya _ fa ba ia, .text _ _ yb _ fb bb ib =>
      decide (|ya - yb| < 4) && decide (|fa - fb| < 2) && (ba == bb) && (ia == ib)
  | _, _ => false

/-- Last character is a space (JavaScript `endsWith(" ")`). -/
def endsWithSpace (s : String) : Bool := s.data.getLast? == some ' '

/-- First character is a space (JavaScript `startsWith(" ")`). -/
def startsWithSpace (s : String) : Bool := s.data.head? == some ' '

/-- Merge text item `b` into running text item `a`: gap is
`b.x − (a.x + a.width)`; a single space is inserted iff the gap exceeds
`0.2 ×` the running item's font size (with `|| 10` default) and neither
side already has boundary whitespace; the width grows by
`gap + b.width`; all other fields keep the running item's values. On
non-text arguments the running item is returned unchanged (the source
never merges those). -/
def doMerge : DocItem → DocItem → DocItem
  | .text ca xa ya wa fa ba ia, .text cb xb _ wb _ _ _ =>
      let gap := xb - (xa + wa)
      let sep : String :=
        if gap > (if fa = 0 then (10 : ℚ) else fa) * (2/10) then
          (if endsWithSpace ca || startsWithSpace cb then "" else " ")
        else ""
      .text ⟨ca.data ++ sep.data ++ cb.data⟩ xa ya (wa + gap + wb) fa ba ia
  | a, _ => a

/-- The merge fold with running item `cur`: each next item merges into
`cur` when the guard holds, and otherwise flushes `cur` to the output
and becomes the new running item; the final running item is flushed at
the end — the source's per-page `forEach` loop. -/
def mergeRun (cur : DocItem) : List DocItem → List DocItem
  | [] => [cur]
  | it :: rest =>
      if canMergeB cur it then mergeRun (doMerge cur it) rest
      else cur :: mergeRun it rest

/-- The whole merge pass over one page's sorted items. -/
def mergeItems : List DocItem → List DocItem
  | [] => []
  | it :: rest => mergeRun it rest

/-- One parsed page: its text runs and its operator list. -/
structure PdfPage where
  runs : List PdfTextRun
  ops : List PdfOp
deriving DecidableEq

/-- One page's contribution: text items and walked images, combined,
sorted, then merged — the body of the page loop, whose running merge
item is reset for every page. -/
def processPage (sqrtFn : ℚ → ℚ) (p : PdfPage) : List DocItem :=
  mergeItems (sortItems
    (textItemsOfPage sqrtFn p.runs ++ (walkOps sqrtFn initialWalkSt p.ops).1.imgs))

/-- Whether interpreting the page's operator list threw. -/
def pageThrew (sqrtFn : ℚ → ℚ) (p : PdfPage) : Bool :=
  (walkOps sqrtFn initialWalkSt p.ops).2

/-- Observable events of the extraction loop, in order: `progress v`
is an invocation of the progress callback with value `v`, and
`pageDone i` marks the point where page `i`'s walk has completed. -/
inductive ProgressEvent where
  | progress (v : ℤ)
  | pageDone (idx : ℕ)
deriving DecidableEq

/-- The extraction loop over pages `idx, idx+1, …` of `total`: each
iteration first invokes the progress callback with
`Math.round((i / numPages) * 100)`, then processes the page. -/
def extractGo (sqrtFn : ℚ → ℚ) (total : ℕ) (idx : ℕ) :
    List PdfPage → List DocItem × List ProgressEvent
  | [] => ([], [])
  | p :: rest =>
      let tail := extractGo sqrtFn total (idx + 1) rest
      (processPage sqrtFn p ++ tail.1,
       .progress (jsRound ((idx : ℚ) * 100 / (total : ℚ))) :: .pageDone idx :: tail.2)

/-- `extractContentFromPdf`: accumulated items across all pages. -/
def extractContent (sqrtFn : ℚ → ℚ) (pages : List PdfPage) : List DocItem :=
  (extractGo sqrtFn pages.length 1 pages).1

/-- The ordered event trace of one extraction. -/
def extractTrace (sqrtFn : ℚ → ℚ) (pages : List PdfPage) : List ProgressEvent :=
  (extractGo sqrtFn pages.length 1 pages).2

/-- True for events before any page's walk has completed. -/
def notWalkEvent : ProgressEvent → Bool
  | .pageDone _ => false
  | _ => true

/-- Replacement table of the XML escaper: the five metacharacters
`& < > " '` become entities; the table is applied character-wise, which
coincides with the source's five sequential global replaces because no
replacement output contains a character replaced by a later step. -/
def escapeChar (c : Char) : List Char :=
  if c = '&' then "&amp;".data
  else if c = '<' then "&lt;".data
  else if c = '>' then "&gt;".data
  else if c = '"' then "&quot;".data
  else if c = Char.ofNat 39 then "&apos;".data
  else [c]

/-- Escape the five XML metacharacters in a string. -/
def escapeXml (s : String) : String := ⟨s.data.flatMap escapeChar⟩

/-- Control characters stripped by `cleanXmlString`: ranges 0x00–0x08,
0x0B, 0x0C and 0x0E–0x1F (tab, newline and carriage return survive). -/
def isStrippedCtl (c : Char) : Bool :=
  c.toNat ≤ 8 || c.toNat = 11 || c.toNat = 12 || (14 ≤ c.toNat && c.toNat ≤ 31)

/-- Strip the control characters removed by `cleanXmlString`. -/
def cleanXmlString (s : String) : String := ⟨s.data.filter (fun c => !isStrippedCtl c)⟩

/-- A run element of the emitted body XML: a text run with escaped
content, half-point size and style flags, or an image-drawing run
referencing a relationship id with clamped EMU extents. -/
inductive DocxRun where
  | text (content : String) (szHalf : ℤ) (bold italic : Bool)
  | image (relId : String) (cx cy : ℤ)
deriving DecidableEq

/-- EMU conversion of one image dimension, exactly as in
`createDocxFromContent`: `Math.round((item.width || 200) * 12700)`,
then clamp above at 20 inches (18,288,000 EMU), then replace a negative
result by 1,000. A zero dimension is falsy in JavaScript, so it takes
the 200-point default instead of reaching the clamps. -/
def emuOfPoints (w : ℚ) : ℤ :=
  let r := jsRound ((if w = 0 then (200 : ℚ) else w) * 12700)
  let rc := if r > 18288000 then 18288000 else r
  if rc < 0 then 1000 else rc

/-- Clamp as the specification words it, for comparison with
`emuOfPoints`. Modelled from the spec: round, clamp above at
18,288,000, clamp a negative rounded value up to 1,000. -/
def specClamp (r : ℤ) : ℤ :=
  if r > 18288000 then 18288000 else if r < 0 then 1000 else r

/-- Serialize one processed item to a body run: a text item is emitted
unless its text is empty (falsy), with XML-escaped, control-stripped
content and half-point size `Math.round((fontSize || 11) * 2)`; an
image item is emitted iff it carries a relationship id. -/
def runOfItem : DocItem → Option DocxRun
  | .text content _ _ _ fontSize bold italic =>
      if content = "" then none
      else some (.text (escapeXml (cleanXmlString content))
        (jsRound ((if fontSize = 0 then (11 : ℚ) else fontSize) * 2)) bold italic)
  | .image _ _ _ w h _ (some rid) => some (.image rid (emuOfPoints w) (emuOfPoints h))
  | .image _ _ _ _ _ _ none => none

/-- Output of the id-allocation pass over the input items: the items
with relationship ids attached, the body-level relationship entries
`(id, target)`, and the media files written `(file name, extension)`. -/
structure AssembledRefs where
  processed : List DocItem
  rels : List (String × String)
  media : List (String × String)
deriving DecidableEq

/-- The id-allocation pass of `createDocxFromContent`: every image item
that carries pixel data receives relationship id `rIdImg<c>` (counter
post-incremented), writes media file `image<c+1>.<ext>`, and records a
relationship to `media/<file>`; all other items pass through unchanged,
keeping any pre-existing relationship id. -/
def assignRels (c : ℕ) : List DocItem → AssembledRefs
  | [] => ⟨[], [], []⟩
  | it :: rest =>
      match it with
      | .image true x y w h ext _ =>
          let rid := "rIdImg" ++ Nat.repr c
          let fname := "image" ++ Nat.repr (c + 1) ++ "." ++ ext
          let t := assignRels (c + 1) rest
          ⟨.image true x y w h ext (some rid) :: t.processed,
           (rid, "media/" ++ fname) :: t.rels,
           (fname, ext) :: t.media⟩
      | _ =>
          let t := assignRels c rest
          ⟨it :: t.processed, t.rels, t.media⟩

/-- Paragraph grouping: `cur` is the open block, `anchor` the Y of the
item that opened it; an item more than 10 units from the anchor closes
the block and opens a new one anchored at its own Y. -/
def groupGo (anchor : ℚ) (cur : List DocItem) : List DocItem → List (List DocItem)
  | [] => [cur]
  | it :: rest =>
      if |itemY it - anchor| > 10 then cur :: groupGo (itemY it) [it] rest
      else groupGo anchor (cur ++ [it]) rest

/-- Group a processed item list into paragraph blocks by the Y-anchor
rule; the first item opens the first block. -/
def groupItems : List DocItem → List (List DocItem)
  | [] => []
  | it :: rest => groupGo (itemY it) [it] rest

/-- The processed items (with relationship ids) of one assembly. -/
def docxProcessedItems (items : List DocItem) : List DocItem :=
  (assignRels 1 items).processed

/-- The body-level image relationship entries of one assembly. -/
def docxImageRels (items : List DocItem) : List (String × String) :=
  (assignRels 1 items).rels

/-- The media files written by one assembly. -/
def docxMediaFiles (items : List DocItem) : List (String × String) :=
  (assignRels 1 items).media

/-- All relationship ids present in the emitted body-level
relationships part: the styles relationship `rId2` plus one id per
embedded image. -/
def docxRelationshipIds (items : List DocItem) : List String :=
  "rId2" :: (docxImageRels items).map Prod.fst

/-- The emitted body: one paragraph per Y-group, each holding the runs
of its items; a paragraph whose accumulated content is empty is never
flushed, so runless groups disappear. -/
def docxBodyBlocks (items : List DocItem) : List (List DocxRun) :=
  (((groupItems (docxProcessedItems items)).map
    (fun blk => blk.filterMap runOfItem)).filter (fun rs => rs ≠ []))

/-- The relationship id referenced by a body run, if any (`r:embed`). -/
def refIdOfRun : DocxRun → Option String
  | .image rid _ _ => some rid
  | _ => none

/-- All relationship ids referenced from the emitted body XML. -/
def docxBodyRefIds (items : List DocItem) : List String :=
  (docxBodyBlocks items).flatten.filterMap refIdOfRun

/-- Extensions given a `<Default>` content type by the fixed
`[Content_Types].xml` emitted by the assembler. -/
def contentTypeDefaults : List String := ["rels", "xml", "png", "jpeg", "jpg"]

/-- Well-formedness the extractor guarantees for every item it
produces: an image item carries pixel data, no pre-assigned
relationship id, and an extension with a declared content type (the
extractor always uses `png`). Text items are unrestricted. -/
def imageOk : DocItem → Bool
  | .image hasData _ _ _ _ ext relId =>
      hasData && relId.isNone && decide (ext ∈ contentTypeDefaults)
  | .text _ _ _ _ _ _ _ => true

/-! ### Helper lemmas -/

theorem composeTransform_assoc (m A B : Matx) :
    composeTransform (composeTransform m A) B = composeTransform m (composeTransform A B) := by
  cases m; cases A; cases B
  simp only [composeTransform, Matx.mk.injEq]
  refine ⟨by ring, by ring, by ring, by ring, by ring, by ring⟩

theorem walkStep_ne_err_isSome (sqrtFn : ℚ → ℚ) (st : WalkSt) (op : PdfOp) (h : op ≠ .err) :
    (walkStep sqrtFn st op).isSome := by
  cases op with
  | save => rfl
  | restore => cases hs : st.stack <;> simp [walkStep, hs]
  | transform n => rfl
  | paintImage r w hh => by_cases hc : r = true ∧ w ≠ 0 ∧ hh ≠ 0 <;> simp [walkStep, hc]
  | err => exact absurd rfl h

theorem dropU_restore_eq (d : ℕ) (rest : List PdfOp) :
    dropUnmatchedRestores d (.restore :: rest) =
      if d = 0 then dropUnmatchedRestores 0 rest
      else .restore :: dropUnmatchedRestores (d - 1) rest := rfl

theorem walkStep_stack_length (sqrtFn : ℚ → ℚ) (st st' : WalkSt) :
    walkStep sqrtFn st .restore = some st' → st'.stack.length = st.stack.length - 1 := by
  cases h : st.stack with
  | nil => intro he; simp [walkStep, h] at he; subst he; simp [h]
  | cons m0 rest => intro he; simp [walkStep, h] at he; subst he; simp [h]

theorem walkOps_dropUnmatched (sqrtFn : ℚ → ℚ) (ops : List PdfOp) :
    ∀ st : WalkSt, walkOps sqrtFn st (dropUnmatchedRestores st.stack.length ops) =
      walkOps sqrtFn st ops := by
  induction ops with
  | nil => intro st; rfl
  | cons op rest ih =>
      intro st
      cases op with
      | save =>
          show walkOps sqrtFn st (.save :: dropUnmatchedRestores (st.stack.length + 1) rest) = _
          have : st.stack.length + 1 =
              ({ st with stack := st.m :: st.stack } : WalkSt).stack.length := by simp
          rw [this]
          simpa [walkOps, walkStep] using ih { st with stack := st.m :: st.stack }
      | restore =>
          cases hs : st.stack with
          | nil =>
              have hst : walkStep sqrtFn st .restore = some st := by simp [walkStep, hs]
              rw [dropU_restore_eq, if_pos (by rfl : ([] : List Matx).length = 0)]
              have htail := ih st
              rw [hs] at htail
              simp only [List.length_nil] at htail
              rw [htail]
              simp [walkOps, hst]
          | cons m0 t =>
              have hst : walkStep sqrtFn st .restore =
                  some { st with m := m0, stack := t } := by simp [walkStep, hs]
              rw [dropU_restore_eq, if_neg (by simp : ¬ ((m0 :: t).length = 0))]
              have harg : (m0 :: t).length - 1 =
                  ({ st with m := m0, stack := t } : WalkSt).stack.length := by simp
              rw [harg]
              simpa [walkOps, hst] using ih { st with m := m0, stack := t }
      | transform n =>
          show walkOps sqrtFn st (.transform n :: dropUnmatchedRestores st.stack.length rest) = _
          have : st.stack.length =
              ({ st with m := composeTransform st.m n } : WalkSt).stack.length := by simp
          rw [this]
          simpa [walkOps, walkStep] using ih { st with m := composeTransform st.m n }
      | paintImage r w hh =>
          show walkOps sqrtFn st (.paintImage r w hh :: dropUnmatchedRestores st.stack.length rest) = _
          by_cases hc : r = true ∧ w ≠ 0 ∧ hh ≠ 0
          · have hst : walkStep sqrtFn st (.paintImage r w hh) = some { st with imgs := st.imgs ++
              [.image true st.m.e st.m.f
                (sqrtFn (st.m.a * st.m.a + st.m.b * st.m.b))
                (sqrtFn (st.m.c * st.m.c + st.m.d * st.m.d)) "png" none] } := by
              simp [walkStep, hc]
            have : st.stack.length = ({ st with imgs := st.imgs ++
              [.image true st.m.e st.m.f
                (sqrtFn (st.m.a * st.m.a + st.m.b * st.m.b))
                (sqrtFn (st.m.c * st.m.c + st.m.d * st.m.d)) "png" none] } : WalkSt).stack.length := by
              simp
            rw [this]
            simpa [walkOps, hst] using ih { st with imgs := st.imgs ++
              [.image true st.m.e st.m.f
                (sqrtFn (st.m.a * st.m.a + st.m.b * st.m.b))
                (sqrtFn (st.m.c * st.m.c + st.m.d * st.m.d)) "png" none] }
          · have hst : walkStep sqrtFn st (.paintImage r w hh) = some st := by
              simp [walkStep, hc]
            simpa [walkOps, hst] using ih st
      | err =>
          show walkOps sqrtFn st (.err :: dropUnmatchedRestores st.stack.length rest) = _
          simp [walkOps, walkStep]

/-! ### C1 -/

/-- C1: the walker's transform operator replaces the current matrix `M`
with exactly the stated affine composition, and composing two incoming
transforms `A` then `B` from any starting matrix gives the same matrix
as applying once the single composite transform obtained by the same
operation from `A` and `B` (the spec's `B∘A`, since the operator maps
`(M, N)` to `N∘M`); consequently both map every point to identical
coordinates — exactly equal here, since the model uses exact rationals. -/
theorem transform_composition_correct :
    (∀ (sqrtFn : ℚ → ℚ) (st : WalkSt) (n : Matx),
      walkStep sqrtFn st (.transform n) = some { st with m := composeTransform st.m n }) ∧
    (∀ m A B : Matx,
      composeTransform (composeTransform m A) B = composeTransform m (composeTransform A B)) ∧
    (∀ (m A B : Matx) (x y : ℚ),
      applyPoint (composeTransform (composeTransform m A) B) x y =
        applyPoint (composeTransform m (composeTransform A B)) x y) :=
  ⟨fun _ _ _ => rfl, composeTransform_assoc,
   fun m A B x y => by rw [composeTransform_assoc]⟩

/-! ### C7 -/

/-- C7: a restore executed on an empty saved-state stack leaves the
walker state unchanged (a no-op, never an error), and deleting every
restore that executes on an empty stack — leaving only the balanced
save/restore pairs — does not change the result of the walk: final
matrix, stack, and collected images are all identical. The stack is a
`List`, so its depth is a natural number and can never be negative. -/
theorem restore_stack_tolerance :
    (∀ (sqrtFn : ℚ → ℚ) (m : Matx) (imgs : List DocItem),
      walkStep sqrtFn ⟨m, [], imgs⟩ .restore = some ⟨m, [], imgs⟩) ∧
    (∀ (sqrtFn : ℚ → ℚ) (st : WalkSt) (ops : List PdfOp),
      walkOps sqrtFn st (dropUnmatchedRestores st.stack.length ops) = walkOps sqrtFn st ops) :=
  ⟨fun _ _ _ => rfl, fun sqrtFn st ops => walkOps_dropUnmatched sqrtFn ops st⟩

theorem extractGo_items (sqrtFn : ℚ → ℚ) (pages : List PdfPage) :
    ∀ total idx : ℕ,
      (extractGo sqrtFn total idx pages).1 = (pages.map (processPage sqrtFn)).flatten := by
  induction pages with
  | nil => intro total idx; rfl
  | cons p rest ih =>
      intro total idx
      simp [extractGo, ih total (idx + 1)]

/-! ### C10 -/

/-- C10: text runs never span pages. The running merge candidate is a
local variable of the page loop, flushed at each page's end, so the
extracted item list of any concatenation of page lists is the
concatenation of the individual extractions — in particular, two pages'
items are never merged into one run even when the last item of one page
and the first item of the next satisfy the merge predicate. -/
theorem no_cross_page_merge (sqrtFn : ℚ → ℚ) (ps qs : List PdfPage) :
    extractContent sqrtFn (ps ++ qs) =
      extractContent sqrtFn ps ++ extractContent sqrtFn qs := by
  simp [extractContent, extractGo_items]

theorem walkOps_err_trunc (sqrtFn : ℚ → ℚ) (ops2 : List PdfOp) :
    ∀ ops1 : List PdfOp, PdfOp.err ∉ ops1 → ∀ st : WalkSt,
      walkOps sqrtFn st (ops1 ++ .err :: ops2) = ((walkOps sqrtFn st ops1).1, true) := by
  intro ops1
  induction ops1 with
  | nil => intro _ st; simp [walkOps, walkStep]
  | cons op rest ih =>
      intro hmem st
      have hop : op ≠ .err := fun he => hmem (he ▸ List.mem_cons_self op rest)
      have hrest : PdfOp.err ∉ rest := fun hm => hmem (List.mem_cons_of_mem op hm)
      obtain ⟨st', hst'⟩ := Option.isSome_iff_exists.mp (walkStep_ne_err_isSome sqrtFn st op hop)
      simp only [List.cons_append, walkOps, hst']
      exact ih hrest st'

theorem processPage_err_trunc (sqrtFn : ℚ → ℚ) (texts : List PdfTextRun)
    (ops1 ops2 : List PdfOp) (h : PdfOp.err ∉ ops1) :
    processPage sqrtFn ⟨texts, ops1 ++ .err :: ops2⟩ = processPage sqrtFn ⟨texts, ops1⟩ := by
  simp [processPage, walkOps_err_trunc sqrtFn ops2 ops1 h]

/-! ### C4 -/

/-- C4 (amended): a page whose operator interpretation throws behaves
exactly like the same page truncated at the throw point — its text
items are all kept (text extraction happens before, and outside, the
guarded operator loop) along with every image item collected before the
throw; only the rest of the page's images are dropped. Processing
continues and all other pages are unaffected. -/
theorem page_error_keeps_collected_items (sqrtFn : ℚ → ℚ) (ps qs : List PdfPage)
    (texts : List PdfTextRun) (ops1 ops2 : List PdfOp) (h : PdfOp.err ∉ ops1) :
    extractContent sqrtFn (ps ++ (⟨texts, ops1 ++ .err :: ops2⟩ : PdfPage) :: qs) =
      extractContent sqrtFn ps ++ processPage sqrtFn ⟨texts, ops1⟩ ++
        extractContent sqrtFn qs := by
  simp [extractContent, extractGo_items, processPage_err_trunc sqrtFn texts ops1 ops2 h]

theorem page_error_keeps_collected_items_witness :
    extractContent (fun q => q)
        ([] ++ (⟨[], [PdfOp.save] ++ PdfOp.err :: []⟩ : PdfPage) :: []) =
      extractContent (fun q => q) [] ++ processPage (fun q => q) ⟨[], [PdfOp.save]⟩ ++
        extractContent (fun q => q) [] :=
  page_error_keeps_collected_items (fun q => q) [] [] [] [PdfOp.save] [] (by decide)

/-- C4 (counterexample): a one-page document whose operator list throws
immediately still contributes its text item to the output — the claim
that such a page contributes no `ContentItem` at all is false. -/
theorem page_error_drop_counterexample :
    pageThrew (fun q => q)
        ⟨[⟨"Hello", ⟨1, 0, 0, 1, 50, 700⟩, 40, "Helvetica"⟩], [PdfOp.err]⟩ = true ∧
    extractContent (fun q => q)
        [⟨[⟨"Hello", ⟨1, 0, 0, 1, 50, 700⟩, 40, "Helvetica"⟩], [PdfOp.err]⟩] =
      [DocItem.text "Hello" 50 700 40 1 false false] := by
  constructor
  · rfl
  · have hk : textKeep (DocItem.text "Hello" 50 700 40 1 false false) = true := by decide
    have hb : isBoldFont "Helvetica" = false := by decide
    have hi : isItalicFont "Helvetica" = false := by decide
    norm_num [extractContent, extractGo, processPage, textItemsOfPage, itemOfRun,
      walkOps, walkStep, hb, hi, hk, sortItems, sortInsert, mergeItems, mergeRun,
      List.foldl, List.filter, List.map]

/-! ### C6 -/

theorem canMergeB_doMerge_left (a b c : DocItem) :
    canMergeB (doMerge a b) c = canMergeB a c := by
  cases a <;> cases b <;> cases c <;> rfl

theorem canMergeB_doMerge_right (c a b : DocItem) :
    canMergeB c (doMerge a b) = canMergeB c a := by
  cases a <;> cases b <;> cases c <;> rfl

theorem mergeRun_head (l : List DocItem) :
    ∀ cur : DocItem, ∃ h t, mergeRun cur l = h :: t ∧
      ∀ c, canMergeB c h = canMergeB c cur := by
  induction l with
  | nil => exact fun cur => ⟨cur, [], rfl, fun _ => rfl⟩
  | cons it rest ih =>
      intro cur
      by_cases hm : canMergeB cur it = true
      · obtain ⟨h, t, he, hc⟩ := ih (doMerge cur it)
        refine ⟨h, t, ?_, fun c => (hc c).trans (canMergeB_doMerge_right c cur it)⟩
        rw [mergeRun, if_pos hm]
        exact he
      · refine ⟨cur, mergeRun it rest, ?_, fun _ => rfl⟩
        rw [mergeRun, if_neg hm]

theorem mergeItems_mergeRun (l : List DocItem) :
    ∀ cur : DocItem, mergeItems (mergeRun cur l) = mergeRun cur l := by
  induction l with
  | nil => intro cur; rfl
  | cons it rest ih =>
      intro cur
      by_cases hm : canMergeB cur it = true
      · rw [mergeRun, if_pos hm]
        exact ih (doMerge cur it)
      · rw [mergeRun, if_neg hm]
        obtain ⟨h, t, he, hc⟩ := mergeRun_head rest it
        have hih : mergeRun h t = h :: t := by
          have := ih it
          rw [he] at this
          exact this
        rw [he, mergeItems, mergeRun]
        have hch : ¬ (canMergeB cur h = true) := by rw [hc cur]; exact hm
        rw [if_neg hch, hih, ← he]

/-- C6: the merge pass is idempotent — running the adjacent-text merge
rule a second time over an already-merged item list returns the list
unchanged. This holds because merging never alters the fields the merge
guard inspects (position Y, font size, bold, italic), so two adjacent
output items that failed the guard when flushed still fail it. -/
theorem merge_pass_idempotent (l : List DocItem) :
    mergeItems (mergeItems l) = mergeItems l := by
  cases l with
  | nil => rfl
  | cons it rest => exact mergeItems_mergeRun rest it

/-! ### C5 -/

theorem groupGo_spread (l : List DocItem) :
    ∀ (anchor : ℚ) (cur : List DocItem),
      (∀ x ∈ cur, |itemY x - anchor| ≤ 10) →
      ∀ blk ∈ groupGo anchor cur l, ∀ i ∈ blk, ∀ j ∈ blk, |itemY i - itemY j| ≤ 20 := by
  induction l with
  | nil =>
      intro anchor cur hcur blk hblk i hi j hj
      rw [groupGo] at hblk
      rw [List.mem_singleton] at hblk
      subst hblk
      have h1 := hcur i hi
      have h2 := hcur j hj
      have he : itemY i - itemY j = (itemY i - anchor) - (itemY j - anchor) := by ring
      rw [he]
      calc |(itemY i - anchor) - (itemY j - anchor)|
          ≤ |itemY i - anchor| + |itemY j - anchor| := abs_sub _ _
        _ ≤ 20 := by linarith
  | cons it rest ih =>
      intro anchor cur hcur blk hblk i hi j hj
      rw [groupGo] at hblk
      by_cases hc : |itemY it - anchor| > 10
      · rw [if_pos hc] at hblk
        rcases List.mem_cons.mp hblk with hb | hb
        · subst hb
          have h1 := hcur i hi
          have h2 := hcur j hj
          have he : itemY i - itemY j = (itemY i - anchor) - (itemY j - anchor) := by ring
          rw [he]
          calc |(itemY i - anchor) - (itemY j - anchor)|
              ≤ |itemY i - anchor| + |itemY j - anchor| := abs_sub _ _
            _ ≤ 20 := by linarith
        · exact ih (itemY it) [it]
            (by intro x hx; rw [List.mem_singleton] at hx; subst hx; simp)
            blk hb i hi j hj
      · rw [if_neg hc] at hblk
        refine ih anchor (cur ++ [it]) ?_ blk hblk i hi j hj
        intro x hx
        rcases List.mem_append.mp hx with hx' | hx'
        · exact hcur x hx'
        · rw [List.mem_singleton] at hx'
          subst hx'
          exact le_of_not_lt hc

/-- C5 (amended): items in one output paragraph block all lie within 10
units of the block's anchor Y (the Y of the item that opened the
block), so any two items in the same block differ by at most 20 units
in Y; equivalently, two items whose Y coordinates differ by more than
20 units always land in different blocks. A Y difference of more than
10 units does not guarantee separation (see the counterexample). -/
theorem same_block_spread_le_20 (items blk : List DocItem)
    (hblk : blk ∈ groupItems items) :
    ∀ i ∈ blk, ∀ j ∈ blk, |itemY i - itemY j| ≤ 20 := by
  intro i hi j hj
  cases items with
  | nil => simp [groupItems] at hblk
  | cons it rest =>
      exact groupGo_spread rest (itemY it) [it]
        (by intro x hx; rw [List.mem_singleton] at hx; subst hx; simp)
        blk hblk i hi j hj

theorem same_block_spread_le_20_witness :
    |itemY (DocItem.text "x" 0 0 0 0 false false) -
      itemY (DocItem.text "x" 0 0 0 0 false false)| ≤ 20 :=
  same_block_spread_le_20 [DocItem.text "x" 0 0 0 0 false false]
    [DocItem.text "x" 0 0 0 0 false false] (by simp [groupItems, groupGo])
    (DocItem.text "x" 0 0 0 0 false false) (by simp)
    (DocItem.text "x" 0 0 0 0 false false) (by simp)

/-- C5 (counterexample): three text runs at Y = 100, 104 and 91 (the
5-unit same-row tie-break orders Y=100 at X=0 before Y=104 at X=10)
produce, through the full pipeline, a single paragraph block containing
both the Y=104 and the Y=91 item — two items whose Y coordinates differ
by 13 > 10 land in the same block, contradicting the claim. -/
theorem paragraph_break_counterexample :
    groupItems (extractContent (fun q => q)
      [⟨[⟨"a", ⟨1, 0, 0, 1, 0, 100⟩, 1, "F"⟩,
         ⟨"b", ⟨1, 0, 0, 1, 10, 104⟩, 1, "F"⟩,
         ⟨"c", ⟨1, 0, 0, 1, 0, 91⟩, 1, "F"⟩], []⟩]) =
      [[DocItem.text "a" 0 100 1 1 false false,
        DocItem.text "b" 10 104 1 1 false false,
        DocItem.text "c" 0 91 1 1 false false]] ∧
    |itemY (DocItem.text "b" 10 104 1 1 false false) -
      itemY (DocItem.text "c" 0 91 1 1 false false)| > 10 := by
  constructor
  · have ka : textKeep (DocItem.text "a" 0 100 1 1 false false) = true := by decide
    have kb : textKeep (DocItem.text "b" 10 104 1 1 false false) = true := by decide
    have kc : textKeep (DocItem.text "c" 0 91 1 1 false false) = true := by decide
    have hb : isBoldFont "F" = false := by decide
    have hi : isItalicFont "F" = false := by decide
    norm_num [extractContent, extractGo, processPage, textItemsOfPage, itemOfRun,
      walkOps, hb, hi, ka, kb, kc, sortItems, sortInsert, cmpItems, itemX, itemY,
      mergeItems, mergeRun, canMergeB, groupItems, groupGo, List.foldl, List.filter,
      List.map]
  · rw [itemY, itemY]
    rw [show (104 : ℚ) - 91 = 13 by norm_num]
    rw [abs_of_pos (by norm_num : (0 : ℚ) < 13)]
    norm_num

/-! ### C8 -/

/-- C8: the two text inputs `{"Hello", x=50, y=700, size=12, width=40}`
and `{" World", x=92, y=700, size=12}` (width 30 chosen for the second;
the gap `92 − (50+40) = 2` is below the `0.2 × 12 = 2.4` threshold, so
no extra space is inserted, and the second item's leading space is
preserved) merge into the single run `"Hello World"`, which the
assembler then emits as one run inside a single paragraph element. -/
theorem hello_world_merge_scenario :
    mergeItems (sortItems
      [DocItem.text "Hello" 50 700 40 12 false false,
       DocItem.text " World" 92 700 30 12 false false]) =
      [DocItem.text "Hello World" 50 700 72 12 false false] ∧
    docxBodyBlocks (mergeItems (sortItems
      [DocItem.text "Hello" 50 700 40 12 false false,
       DocItem.text " World" 92 700 30 12 false false])) =
      [[DocxRun.text "Hello World" 24 false false]] := by
  have h1 : mergeItems (sortItems
      [DocItem.text "Hello" 50 700 40 12 false false,
       DocItem.text " World" 92 700 30 12 false false]) =
      [DocItem.text "Hello World" 50 700 72 12 false false] := by
    norm_num [mergeItems, sortItems, sortInsert, cmpItems, itemX, itemY, mergeRun,
      canMergeB, doMerge, endsWithSpace, startsWithSpace, List.foldl]
  refine ⟨h1, ?_⟩
  rw [h1]
  have h2 : escapeXml (cleanXmlString "Hello World") = "Hello World" := by decide
  have h3 : ("Hello World" = "") = False := by decide
  norm_num [docxBodyBlocks, docxProcessedItems, assignRels, groupItems, groupGo,
    runOfItem, itemY, jsRound, h2, h3, List.filterMap, List.filter]

/-! ### C9 -/

theorem extractGo_trace (sqrtFn : ℚ → ℚ) (total : ℕ) (pages : List PdfPage) :
    ∀ idx : ℕ, (extractGo sqrtFn total idx pages).2 =
      (List.range pages.length).flatMap (fun k =>
        [ProgressEvent.progress (jsRound (((idx + k : ℕ) : ℚ) * 100 / (total : ℚ))),
         ProgressEvent.pageDone (idx + k)]) := by
  induction pages with
  | nil => intro idx; rfl
  | cons p rest ih =>
      intro idx
      simp only [extractGo, List.length_cons, List.range_succ_eq_map,
        List.flatMap_cons, List.flatMap_map, ih (idx + 1)]
      simp only [Nat.add_zero, Function.comp]
      simp only [List.cons_append, List.nil_append, List.cons.injEq, true_and]
      congr 1
      funext k
      have hk : idx + 1 + k = idx + k.succ := by omega
      rw [hk]

/-- C9 (amended): the progress callback is invoked exactly once per
page, synchronously, immediately BEFORE that page's walk (not after it
completes), with value `Math.round((i / totalPages) * 100)` for the
1-based page index `i`; consequently the value 100 is reported as the
last page's processing begins, before its walk completes. The trace is
exactly `progress v₁, pageDone 1, …, progress vₙ, pageDone n`. -/
theorem progress_before_each_page_walk (sqrtFn : ℚ → ℚ) (pages : List PdfPage) :
    extractTrace sqrtFn pages = (List.range pages.length).flatMap (fun k =>
      [ProgressEvent.progress (jsRound (((k + 1 : ℕ) : ℚ) * 100 / (pages.length : ℚ))),
       ProgressEvent.pageDone (k + 1)]) := by
  rw [extractTrace, extractGo_trace sqrtFn pages.length pages 1]
  congr 1
  funext k
  rw [Nat.add_comm 1 k]

/-- C9 (counterexample): for a one-page document the observed trace is
`[progress 100, pageDone 1]` — the value 100 is reported strictly
before the page's walk completes, so the claim that each callback fires
after its page's walk (and 100 only after the last page) is false. -/
theorem progress_after_walk_counterexample :
    extractTrace (fun q => q) [⟨[], []⟩] =
      [ProgressEvent.progress 100, ProgressEvent.pageDone 1] ∧
    ProgressEvent.progress 100 ∈
      (extractTrace (fun q => q) [⟨[], []⟩]).takeWhile notWalkEvent := by
  have h : extractTrace (fun q => q) [⟨[], []⟩] =
      [ProgressEvent.progress 100, ProgressEvent.pageDone 1] := by
    norm_num [extractTrace, extractGo, jsRound]
  refine ⟨h, ?_⟩
  rw [h]
  decide

/-! ### C3 -/

/-- C3 (amended): for every non-zero dimension, the emitted extent is
`Math.round(points × 12700)` clamped to at most 18,288,000 EMU, with a
negative rounded value clamped up to 1,000 EMU (`specClamp`, the
spec's formula). A zero dimension, however, is falsy in JavaScript and
takes the 200-point default instead, yielding 2,540,000 EMU — not the
1,000 EMU the claim's "any non-positive dimension" wording requires.
The claim's concrete instances hold: 10,000 points clamps to exactly
18,288,000; width −5 clamps to 1,000; a 100 × 50 point image at scale
1.0 yields extents 1,270,000 × 635,000 in the emitted drawing run. -/
theorem emu_clamp_amended :
    (∀ w : ℚ, w ≠ 0 → emuOfPoints w = specClamp (jsRound (w * 12700))) ∧
    emuOfPoints 0 = 2540000 ∧
    emuOfPoints 10000 = 18288000 ∧
    emuOfPoints (-5) = 1000 ∧
    runOfItem (DocItem.image true 0 0 100 50 "png" (some "rIdImg1")) =
      some (DocxRun.image "rIdImg1" 1270000 635000) := by
  have key : ∀ r : ℤ,
      (if (if r > 18288000 then (18288000 : ℤ) else r) < 0 then (1000 : ℤ)
       else if r > 18288000 then 18288000 else r) = specClamp r := by
    intro r
    rw [specClamp]
    split_ifs <;> omega
  refine ⟨fun w hw => ?_, ?_, ?_, ?_, ?_⟩
  · rw [emuOfPoints, if_neg hw]
    exact key (jsRound (w * 12700))
  · norm_num [emuOfPoints, jsRound]
  · norm_num [emuOfPoints, jsRound]
  · norm_num [emuOfPoints, jsRound]
  · norm_num [runOfItem, emuOfPoints, jsRound]

theorem emu_clamp_amended_witness :
    emuOfPoints 3 = specClamp (jsRound (3 * 12700)) :=
  emu_clamp_amended.1 3 (by decide)

/-- C3 (counterexample): an image item of width 0 (a non-positive
dimension) is serialized with extent 2,540,000 EMU — the 200-point
JavaScript `||` default times 12,700 — not clamped up to 1,000 EMU as
the claim states for every non-positive dimension. -/
theorem emu_zero_width_counterexample :
    runOfItem (DocItem.image true 0 0 0 50 "png" (some "rIdImg1")) =
      some (DocxRun.image "rIdImg1" 2540000 635000) ∧
    (2540000 : ℤ) ≠ 1000 ∧ ¬ ((0 : ℚ) > 0) := by
  refine ⟨?_, by decide, by norm_num⟩
  norm_num [runOfItem, emuOfPoints, jsRound]

/-! ### C2 -/

/-- The relationship id an item will reference from the body, if any:
image items carrying a relationship id reference it; nothing else
references one. -/
def itemEmbedId : DocItem → Option String
  | .image _ _ _ _ _ _ (some rid) => some rid
  | _ => none

theorem flatten_filter_ne_nil (L : List (List DocxRun)) :
    (L.filter (fun rs => rs ≠ [])).flatten = L.flatten := by
  induction L with
  | nil => rfl
  | cons b rest ih =>
      by_cases hb : b = []
      · subst hb; simpa using ih
      · simp only [List.filter_cons, hb, decide_not, ne_eq, decide_eq_true_eq,
          if_pos, Bool.not_eq_eq_eq_not, Bool.not_true, decide_eq_false_iff_not,
          not_false_eq_true, ite_true, List.flatten_cons]
        rw [show (List.filter (fun rs => !decide (rs = [])) rest) =
            (List.filter (fun rs => decide (rs ≠ [])) rest) from by
          simp only [ne_eq, decide_not]]
        rw [ih]

theorem flatten_map_filterMap (f : DocItem → Option DocxRun) (L : List (List DocItem)) :
    (L.map (fun b => b.filterMap f)).flatten = L.flatten.filterMap f := by
  induction L with
  | nil => rfl
  | cons b rest ih =>
      rw [List.map_cons, List.flatten_cons, ih, List.flatten_cons, List.filterMap_append]

theorem groupGo_flatten (l : List DocItem) :
    ∀ (anchor : ℚ) (cur : List DocItem), (groupGo anchor cur l).flatten = cur ++ l := by
  induction l with
  | nil => intro anchor cur; simp [groupGo]
  | cons it rest ih =>
      intro anchor cur
      rw [groupGo]
      by_cases hc : |itemY it - anchor| > 10
      · rw [if_pos hc]; simp [ih]
      · rw [if_neg hc]; simp [ih]

theorem groupItems_flatten (l : List DocItem) : (groupItems l).flatten = l := by
  cases l with
  | nil => rfl
  | cons it rest => rw [groupItems, groupGo_flatten]; rfl

theorem runOfItem_bind_refId (it : DocItem) :
    (runOfItem it).bind refIdOfRun = itemEmbedId it := by
  cases it with
  | text content x y w f b i =>
      by_cases hc : content = "" <;> simp [runOfItem, hc, refIdOfRun, itemEmbedId]
  | image hasData x y w h ext relId =>
      cases relId <;> simp [runOfItem, refIdOfRun, itemEmbedId]

theorem docxBodyRefIds_eq (items : List DocItem) :
    docxBodyRefIds items = (docxProcessedItems items).filterMap itemEmbedId := by
  rw [docxBodyRefIds, docxBodyBlocks, flatten_filter_ne_nil, flatten_map_filterMap,
    groupItems_flatten, List.filterMap_filterMap]
  congr 1
  funext it
  exact runOfItem_bind_refId it

theorem assignRels_text_eq (c : ℕ) (content : String) (x y w f : ℚ) (b i : Bool)
    (rest : List DocItem) :
    assignRels c (.text content x y w f b i :: rest) =
      ⟨.text content x y w f b i :: (assignRels c rest).processed,
       (assignRels c rest).rels, (assignRels c rest).media⟩ := rfl

theorem assignRels_imageT_eq (c : ℕ) (x y w h : ℚ) (ext : String) (relId : Option String)
    (rest : List DocItem) :
    assignRels c (.image true x y w h ext relId :: rest) =
      ⟨.image true x y w h ext (some ("rIdImg" ++ Nat.repr c)) ::
        (assignRels (c + 1) rest).processed,
       ("rIdImg" ++ Nat.repr c,
        "media/" ++ ("image" ++ Nat.repr (c + 1) ++ "." ++ ext)) ::
          (assignRels (c + 1) rest).rels,
       ("image" ++ Nat.repr (c + 1) ++ "." ++ ext, ext) ::
          (assignRels (c + 1) rest).media⟩ := rfl

theorem assignRels_imageF_eq (c : ℕ) (x y w h : ℚ) (ext : String) (relId : Option String)
    (rest : List DocItem) :
    assignRels c (.image false x y w h ext relId :: rest) =
      ⟨.image false x y w h ext relId :: (assignRels c rest).processed,
       (assignRels c rest).rels, (assignRels c rest).media⟩ := rfl

theorem assignRels_embedIds (items : List DocItem) :
    ∀ c : ℕ, (∀ it ∈ items, imageOk it = true) →
      ∀ rid ∈ (assignRels c items).processed.filterMap itemEmbedId,
        rid ∈ (assignRels c items).rels.map Prod.fst := by
  induction items with
  | nil => intro c _ rid hr; simp [assignRels] at hr
  | cons it rest ih =>
      intro c hok rid hr
      have hokr : ∀ x ∈ rest, imageOk x = true :=
        fun x hx => hok x (List.mem_cons_of_mem it hx)
      cases it with
      | text content x y w f b i =>
          rw [assignRels_text_eq] at hr ⊢
          simp only [List.filterMap_cons] at hr
          rw [show itemEmbedId (.text content x y w f b i) = none from rfl] at hr
          exact ih c hokr rid hr
      | image hasData x y w h ext relId =>
          cases hasData with
          | false =>
              have := hok _ (List.mem_cons_self _ _)
              rw [imageOk] at this
              simp at this
          | true =>
              rw [assignRels_imageT_eq] at hr ⊢
              simp only [List.filterMap_cons] at hr
              rw [show itemEmbedId (.image true x y w h ext
                  (some ("rIdImg" ++ Nat.repr c))) =
                  some ("rIdImg" ++ Nat.repr c) from rfl] at hr
              rcases List.mem_cons.mp hr with he | hm
              · subst he
                exact List.mem_cons_self _ _
              · exact List.mem_cons_of_mem _ (ih (c + 1) hokr rid hm)

theorem assignRels_media_ok (items : List DocItem) :
    ∀ c : ℕ, (∀ it ∈ items, imageOk it = true) →
      ∀ fe ∈ (assignRels c items).media, fe.2 ∈ contentTypeDefaults := by
  induction items with
  | nil => intro c _ fe hf; simp [assignRels] at hf
  | cons it rest ih =>
      intro c hok fe hf
      have hokr : ∀ x ∈ rest, imageOk x = true :=
        fun x hx => hok x (List.mem_cons_of_mem it hx)
      cases it with
      | text content x y w f b i =>
          rw [assignRels_text_eq] at hf
          exact ih c hokr fe hf
      | image hasData x y w h ext relId =>
          cases hasData with
          | false =>
              have := hok _ (List.mem_cons_self _ _)
              rw [imageOk] at this
              simp at this
          | true =>
              rw [assignRels_imageT_eq] at hf
              rcases List.mem_cons.mp hf with he | hm
              · subst he
                have := hok _ (List.mem_cons_self _ _)
                rw [imageOk] at this
                simp only [Bool.and_eq_true, decide_eq_true_eq] at this
                exact this.2
              · exact ih (c + 1) hokr fe hm

theorem imageOk_textItems (sqrtFn : ℚ → ℚ) (runs : List PdfTextRun) :
    ∀ it ∈ textItemsOfPage sqrtFn runs, imageOk it = true := by
  intro it hit
  rw [textItemsOfPage] at hit
  obtain ⟨hmem, _⟩ := List.mem_filter.mp hit
  obtain ⟨r, _, hr⟩ := List.mem_map.mp hmem
  rw [← hr, itemOfRun, imageOk]

theorem imageOk_walkOps (sqrtFn : ℚ → ℚ) (ops : List PdfOp) :
    ∀ st : WalkSt, (∀ x ∈ st.imgs, imageOk x = true) →
      ∀ y ∈ (walkOps sqrtFn st ops).1.imgs, imageOk y = true := by
  induction ops with
  | nil => intro st hst y hy; exact hst y hy
  | cons op rest ih =>
      intro st hst y hy
      cases op with
      | save =>
          simp only [walkOps, walkStep] at hy
          exact ih { st with stack := st.m :: st.stack } hst y hy
      | restore =>
          cases hs : st.stack with
          | nil =>
              simp only [walkOps, show walkStep sqrtFn st .restore = some st from by
                simp [walkStep, hs]] at hy
              exact ih st hst y hy
          | cons m0 t =>
              simp only [walkOps, show walkStep sqrtFn st .restore =
                  some { st with m := m0, stack := t } from by simp [walkStep, hs]] at hy
              exact ih { st with m := m0, stack := t } hst y hy
      | transform n =>
          simp only [walkOps, walkStep] at hy
          exact ih { st with m := composeTransform st.m n } hst y hy
      | err =>
          simp only [walkOps, walkStep] at hy
          exact hst y hy
      | paintImage r w h =>
          by_cases hc : r = true ∧ w ≠ 0 ∧ h ≠ 0
          · simp only [walkOps, show walkStep sqrtFn st (.paintImage r w h) =
                some { st with imgs := st.imgs ++
                  [.image true st.m.e st.m.f
                    (sqrtFn (st.m.a * st.m.a + st.m.b * st.m.b))
                    (sqrtFn (st.m.c * st.m.c + st.m.d * st.m.d)) "png" none] } from by
                simp [walkStep, hc]] at hy
            refine ih { st with imgs := st.imgs ++
                  [.image true st.m.e st.m.f
                    (sqrtFn (st.m.a * st.m.a + st.m.b * st.m.b))
                    (sqrtFn (st.m.c * st.m.c + st.m.d * st.m.d)) "png" none] } ?_ y hy
            intro x hx
            simp only [List.mem_append, List.mem_singleton] at hx
            rcases hx with hx' | hx'
            · exact hst x hx'
            · subst hx'
              rfl
          · simp only [walkOps, show walkStep sqrtFn st (.paintImage r w h) = some st from by
                simp [walkStep, hc]] at hy
            exact ih st hst y hy

theorem mem_sortInsert (x y : DocItem) (l : List DocItem) :
    y ∈ sortInsert x l → y = x ∨ y ∈ l := by
  induction l with
  | nil => intro h; rw [sortInsert, List.mem_singleton] at h; exact Or.inl h
  | cons z zs ih =>
      intro h
      rw [sortInsert] at h
      by_cases hc : cmpItems z x > 0
      · rw [if_pos hc] at h
        rcases List.mem_cons.mp h with h' | h'
        · exact Or.inl h'
        · exact Or.inr h'
      · rw [if_neg hc] at h
        rcases List.mem_cons.mp h with h' | h'
        · exact Or.inr (h' ▸ List.mem_cons_self z zs)
        · rcases ih h' with h'' | h''
          · exact Or.inl h''
          · exact Or.inr (List.mem_cons_of_mem z h'')

theorem mem_sortItems_aux (l : List DocItem) :
    ∀ (acc : List DocItem) (y : DocItem),
      y ∈ List.foldl (fun a x => sortInsert x a) acc l → y ∈ acc ∨ y ∈ l := by
  induction l with
  | nil => intro acc y h; exact Or.inl h
  | cons z zs ih =>
      intro acc y h
      rw [List.foldl_cons] at h
      rcases ih (sortInsert z acc) y h with h' | h'
      · rcases mem_sortInsert z y acc h' with h'' | h''
        · exact Or.inr (h'' ▸ List.mem_cons_self z zs)
        · exact Or.inl h''
      · exact Or.inr (List.mem_cons_of_mem z h')

theorem mem_sortItems (l : List DocItem) (y : DocItem) (h : y ∈ sortItems l) : y ∈ l := by
  rcases mem_sortItems_aux l [] y h with h' | h'
  · simp at h'
  · exact h'

theorem imageOk_doMerge (a b : DocItem) (ha : imageOk a = true) :
    imageOk (doMerge a b) = true := by
  cases a <;> cases b <;> exact ha

theorem imageOk_mergeRun (l : List DocItem) :
    ∀ cur : DocItem, imageOk cur = true → (∀ x ∈ l, imageOk x = true) →
      ∀ y ∈ mergeRun cur l, imageOk y = true := by
  induction l with
  | nil =>
      intro cur hcur _ y hy
      rw [mergeRun, List.mem_singleton] at hy
      exact hy ▸ hcur
  | cons it rest ih =>
      intro cur hcur hl y hy
      have hit : imageOk it = true := hl it (List.mem_cons_self _ _)
      have hrest : ∀ x ∈ rest, imageOk x = true :=
        fun x hx => hl x (List.mem_cons_of_mem it hx)
      rw [mergeRun] at hy
      by_cases hc : canMergeB cur it = true
      · rw [if_pos hc] at hy
        exact ih (doMerge cur it) (imageOk_doMerge cur it hcur) hrest y hy
      · rw [if_neg hc] at hy
        rcases List.mem_cons.mp hy with h' | h'
        · exact h' ▸ hcur
        · exact ih it hit hrest y h'

theorem imageOk_processPage (sqrtFn : ℚ → ℚ) (p : PdfPage) :
    ∀ it ∈ processPage sqrtFn p, imageOk it = true := by
  intro it hit
  rw [processPage] at hit
  have hsorted : ∀ x ∈ sortItems (textItemsOfPage sqrtFn p.runs ++
      (walkOps sqrtFn initialWalkSt p.ops).1.imgs), imageOk x = true := by
    intro x hx
    have hx' := mem_sortItems _ x hx
    rcases List.mem_append.mp hx' with h' | h'
    · exact imageOk_textItems sqrtFn p.runs x h'
    · exact imageOk_walkOps sqrtFn p.ops initialWalkSt (by intro z hz; simp [initialWalkSt] at hz) x h'
  cases hso : sortItems (textItemsOfPage sqrtFn p.runs ++
      (walkOps sqrtFn initialWalkSt p.ops).1.imgs) with
  | nil => rw [hso, mergeItems] at hit; simp at hit
  | cons z zs =>
      rw [hso, mergeItems] at hit
      rw [hso] at hsorted
      exact imageOk_mergeRun zs z (hsorted z (List.mem_cons_self _ _))
        (fun x hx => hsorted x (List.mem_cons_of_mem z hx)) it hit

theorem imageOk_extract (sqrtFn : ℚ → ℚ) (pages : List PdfPage) :
    ∀ it ∈ extractContent sqrtFn pages, imageOk it = true := by
  intro it hit
  rw [extractContent, extractGo_items] at hit
  obtain ⟨b, hb, hitb⟩ := List.mem_flatten.mp hit
  obtain ⟨p, _, hp⟩ := List.mem_map.mp hb
  exact imageOk_processPage sqrtFn p it (hp ▸ hitb)

/-- C2 (amended): the structural round-trip holds for every input list
whose image items are well formed — carrying pixel data, no
pre-assigned relationship id, and an extension with a declared content
type — and the extraction stage guarantees this for every item it
produces (its images always carry data, no id, and extension `png`).
For such inputs, every relationship id referenced from the body XML has
a matching entry in the body-level relationships part, and every media
file written has an extension with a content-type default. For
arbitrary item lists the property fails (see the counterexample). -/
theorem package_invariants_wf :
    (∀ (sqrtFn : ℚ → ℚ) (pages : List PdfPage),
      (extractContent sqrtFn pages).all imageOk = true) ∧
    (∀ items : List DocItem, items.all imageOk = true →
      (docxBodyRefIds items).all
          (fun rid => decide (rid ∈ docxRelationshipIds items)) = true ∧
      (docxMediaFiles items).all
          (fun fe => decide (fe.2 ∈ contentTypeDefaults)) = true) := by
  constructor
  · intro sqrtFn pages
    rw [List.all_eq_true]
    exact fun it hit => imageOk_extract sqrtFn pages it hit
  · intro items hok
    rw [List.all_eq_true] at hok
    constructor
    · rw [List.all_eq_true]
      intro rid hrid
      rw [decide_eq_true_eq]
      rw [docxBodyRefIds_eq, docxProcessedItems] at hrid
      rw [docxRelationshipIds]
      exact List.mem_cons_of_mem _
        (assignRels_embedIds items 1 hok rid hrid)
    · rw [List.all_eq_true]
      intro fe hfe
      rw [decide_eq_true_eq]
      exact assignRels_media_ok items 1 hok fe hfe

theorem package_invariants_wf_witness :
    (docxBodyRefIds [DocItem.image true 0 0 10 10 "png" none]).all
        (fun rid =>
          decide (rid ∈ docxRelationshipIds [DocItem.image true 0 0 10 10 "png" none])) =
        true ∧
    (docxMediaFiles [DocItem.image true 0 0 10 10 "png" none]).all
        (fun fe => decide (fe.2 ∈ contentTypeDefaults)) = true :=
  package_invariants_wf.2 [DocItem.image true 0 0 10 10 "png" none] (by decide)

/-- C2 (counterexample): for the input list holding an image with
extension `gif` (data present) and a data-less image with a
pre-assigned relationship id `rIdX`, the assembler emits a body run
referencing `rIdX` with no corresponding relationship entry, and writes
media file `image2.gif` whose extension has no content-type default —
both halves of the claim fail for this input list. -/
theorem package_invariants_counterexample :
    ("rIdX" ∈ docxBodyRefIds
        [DocItem.image true 0 0 10 10 "gif" none,
         DocItem.image false 0 0 5 5 "png" (some "rIdX")] ∧
      "rIdX" ∉ docxRelationshipIds
        [DocItem.image true 0 0 10 10 "gif" none,
         DocItem.image false 0 0 5 5 "png" (some "rIdX")]) ∧
    (("image2.gif", "gif") ∈ docxMediaFiles
        [DocItem.image true 0 0 10 10 "gif" none,
         DocItem.image false 0 0 5 5 "png" (some "rIdX")] ∧
      "gif" ∉ contentTypeDefaults) := by
  refine ⟨⟨?_, ?_⟩, ?_, ?_⟩
  · rw [docxBodyRefIds_eq]
    decide
  · decide
  · decide
  · decide
